import Mathlib

/-!
Verification of the DHT node core (`src/lib.rs`) against its natural-language
specification.  The Rust code is shallowly embedded: pure functions become Lean
functions, the lock-free maps become association lists with read-modify-write
update, machine integers become `Nat` with explicit `% 256` where the source's
`u8` arithmetic can wrap, and fallible code returns `Except String`.
External collaborators (the adnl link layer, cryptographic verification,
TL serialization) are parameters of the embedded functions, as the spec
declares them out of scope.
-/

namespace Dht

/-! ## Affinity (DhtNode::get_affinity, src/lib.rs lines 243-245 and 935-951)

`BITS` is the 16-entry nibble table of the source.  `get_affinity` walks the
32 bytes of the two keys: equal bytes add 8 to the `u8` accumulator, the first
differing byte adds its leading-zero count and stops.  The accumulator is a
`u8` in the source, so every addition is taken `% 256` (release-mode wrapping
semantics). -/

def BITS : List Nat := [4, 3, 2, 2, 1, 1, 1, 1, 0, 0, 0, 0, 0, 0, 0, 0]

def bitsAt (i : Nat) : Nat := BITS.getD i 0

def affLoop (acc : Nat) : List Nat → List Nat → Nat
  | k1h :: k1t, k2h :: k2t =>
    let x := k1h ^^^ k2h
    if x = 0 then
      affLoop ((acc + 8) % 256) k1t k2t
    else if x &&& 0xF0 = 0 then
      (acc + (bitsAt (x &&& 0x0F) + 4)) % 256
    else
      (acc + bitsAt (x >>> 4)) % 256
  | _, _ => acc

def get_affinity (key1 key2 : List Nat) : Nat := affLoop 0 key1 key2

/-- Number of leading zero bits of an 8-bit byte, written from the spec's
words ("the count of leading zero bits of that byte's XOR"). -/
def byteLZ (x : Nat) : Nat :=
  if 128 ≤ x then 0
  else if 64 ≤ x then 1
  else if 32 ≤ x then 2
  else if 16 ≤ x then 3
  else if 8 ≤ x then 4
  else if 4 ≤ x then 5
  else if 2 ≤ x then 6
  else if 1 ≤ x then 7
  else 8

/-- Spec-side definition ("number of leading equal bits of `a XOR b` over 256
bits"), byte lists MSB-first, to be compared with `get_affinity`. -/
def leadingEqualBits : List Nat → List Nat → Nat
  | a :: as, b :: bs => if a ^^^ b = 0 then 8 + leadingEqualBits as bs else byteLZ (a ^^^ b)
  | _, _ => 0

theorem byteLZ_le_seven {x : Nat} (hx : x ≠ 0) : byteLZ x ≤ 7 := by
  simp only [byteLZ]
  split_ifs <;> omega

set_option maxRecDepth 16000 in
theorem byte_branch :
    ∀ x < 256, x ≠ 0 →
      (if x &&& 0xF0 = 0 then bitsAt (x &&& 0x0F) + 4 else bitsAt (x >>> 4)) = byteLZ x := by
  decide

theorem xor_lt_256 {x y : Nat} (hx : x < 256) (hy : y < 256) : x ^^^ y < 256 := by
  have h : x ^^^ y < 2 ^ 8 := Nat.xor_lt_two_pow (n := 8) hx hy
  simpa using h

theorem leadingEqualBits_lt :
    ∀ (a b : List Nat), a.length = b.length → a ≠ b →
      leadingEqualBits a b < 8 * a.length
  | [], [], _, hne => absurd rfl hne
  | [], _ :: _, hlen, _ => by simp at hlen
  | _ :: _, [], hlen, _ => by simp at hlen
  | x :: as, y :: bs, hlen, hne => by
    simp only [List.length_cons, Nat.succ.injEq] at hlen
    by_cases hxy : x ^^^ y = 0
    · have hx : x = y := Nat.xor_eq_zero.mp hxy
      have hne' : as ≠ bs := by
        intro h; exact hne (by rw [hx, h])
      have ih := leadingEqualBits_lt as bs hlen hne'
      simp [leadingEqualBits, hxy]
      omega
    · have h7 : byteLZ (x ^^^ y) ≤ 7 := byteLZ_le_seven hxy
      simp [leadingEqualBits, hxy]
      omega

theorem affLoop_eq_of_ne :
    ∀ (a b : List Nat) (acc : Nat), a.length = b.length →
      (∀ x ∈ a, x < 256) → (∀ x ∈ b, x < 256) → a ≠ b →
      acc + 8 * a.length ≤ 256 →
      affLoop acc a b = acc + leadingEqualBits a b
  | [], [], _, _, _, _, hne, _ => absurd rfl hne
  | [], _ :: _, _, hlen, _, _, _, _ => by simp at hlen
  | _ :: _, [], _, hlen, _, _, _, _ => by simp at hlen
  | x :: as, y :: bs, acc, hlen, ha, hb, hne, hacc => by
    simp only [List.length_cons, Nat.succ.injEq] at hlen
    simp only [List.length_cons] at hacc
    by_cases hxy : x ^^^ y = 0
    · have hx : x = y := Nat.xor_eq_zero.mp hxy
      have hne' : as ≠ bs := by
        intro h; exact hne (by rw [hx, h])
      have hlen0 : 1 ≤ as.length := by
        rcases as with _ | ⟨a0, as0⟩
        · rcases bs with _ | ⟨b0, bs0⟩
          · exact absurd rfl hne'
          · simp at hlen
        · simp
      have hmod : (acc + 8) % 256 = acc + 8 := Nat.mod_eq_of_lt (by omega)
      have ih := affLoop_eq_of_ne as bs (acc + 8) hlen
        (fun z hz => ha z (List.mem_cons_of_mem _ hz))
        (fun z hz => hb z (List.mem_cons_of_mem _ hz))
        hne' (by omega)
      rw [show affLoop acc (x :: as) (y :: bs) = affLoop ((acc + 8) % 256) as bs by
        simp [affLoop, hxy]]
      rw [hmod, ih]
      simp [leadingEqualBits, hxy]
      omega
    · have hxlt : x ^^^ y < 256 :=
        xor_lt_256 (ha x (List.mem_cons_self _ _)) (hb y (List.mem_cons_self _ _))
      have hbr := byte_branch (x ^^^ y) hxlt hxy
      have h7 : byteLZ (x ^^^ y) ≤ 7 := byteLZ_le_seven hxy
      by_cases hh : (x ^^^ y) &&& 0xF0 = 0
      · rw [show affLoop acc (x :: as) (y :: bs) =
            (acc + (bitsAt ((x ^^^ y) &&& 0x0F) + 4)) % 256 by
          simp [affLoop, hxy, hh]]
        rw [show bitsAt ((x ^^^ y) &&& 0x0F) + 4 = byteLZ (x ^^^ y) by
          simpa [hh] using hbr]
        rw [Nat.mod_eq_of_lt (by omega)]
        simp [leadingEqualBits, hxy]
      · rw [show affLoop acc (x :: as) (y :: bs) = (acc + bitsAt ((x ^^^ y) >>> 4)) % 256 by
          simp [affLoop, hxy, hh]]
        rw [show bitsAt ((x ^^^ y) >>> 4) = byteLZ (x ^^^ y) by
          simpa [hh] using hbr]
        rw [Nat.mod_eq_of_lt (by omega)]
        simp [leadingEqualBits, hxy]

theorem affLoop_self :
    ∀ (a : List Nat) (acc : Nat), acc < 256 →
      affLoop acc a a = (acc + 8 * a.length) % 256
  | [], acc, hacc => by
    simp [affLoop, Nat.mod_eq_of_lt hacc]
  | x :: as, acc, hacc => by
    have hx : x ^^^ x = 0 := Nat.xor_self x
    have ih := affLoop_self as ((acc + 8) % 256) (Nat.mod_lt _ (by omega))
    rw [show affLoop acc (x :: as) (x :: as) = affLoop ((acc + 8) % 256) as as by
      simp [affLoop, hx]]
    rw [ih, Nat.mod_add_mod]
    congr 1
    simp only [List.length_cons]
    ring

/-- C3 (amended): for distinct 32-byte keys, `get_affinity` equals the number
of leading equal bits of `a XOR b` (which never exceeds 255); for equal keys
the `u8` accumulator wraps around (32 · 8 = 256 ≡ 0), so the affinity of a key
to itself is 0, not 255. -/
theorem get_affinity_characterization (a b : List Nat)
    (ha : a.length = 32) (hb : b.length = 32)
    (ha2 : ∀ x ∈ a, x < 256) (hb2 : ∀ x ∈ b, x < 256) :
    (a ≠ b → get_affinity a b = leadingEqualBits a b ∧ leadingEqualBits a b ≤ 255) ∧
    get_affinity a a = 0 := by
  constructor
  · intro hne
    have hlen : a.length = b.length := by rw [ha, hb]
    have h1 := affLoop_eq_of_ne a b 0 hlen ha2 hb2 hne (by omega)
    have h2 := leadingEqualBits_lt a b hlen hne
    rw [ha] at h2
    exact ⟨by simpa [get_affinity] using h1, by omega⟩
  · have := affLoop_self a 0 (by omega)
    rw [ha] at this
    simpa [get_affinity] using this

/-- C3 counterexample: for two equal keys (all-zero), `get_affinity` returns 0,
while the claim ("clamped to 255, so self-affinity is 255") demands 255. -/
theorem get_affinity_self_not_clamped :
    get_affinity (List.replicate 32 0) (List.replicate 32 0) = 0 ∧
    min (leadingEqualBits (List.replicate 32 0) (List.replicate 32 0)) 255 = 255 := by
  decide

/-- Witness for `get_affinity_characterization` at concrete distinct keys. -/
theorem get_affinity_characterization_witness :
    get_affinity (1 :: List.replicate 31 0) (List.replicate 32 0) =
      leadingEqualBits (1 :: List.replicate 31 0) (List.replicate 32 0) ∧
    leadingEqualBits (1 :: List.replicate 31 0) (List.replicate 32 0) ≤ 255 ∧
    get_affinity (1 :: List.replicate 31 0) (1 :: List.replicate 31 0) = 0 := by
  have h := get_affinity_characterization (1 :: List.replicate 31 0) (List.replicate 32 0)
    (by decide) (by decide) (by decide) (by decide)
  have hne : (1 :: List.replicate 31 0) ≠ (List.replicate 32 0) := by decide
  exact ⟨(h.1 hne).1, (h.1 hne).2, h.2⟩

/-! ## Data model (ton_api dht types, shallowly embedded)

Byte strings are `List Nat`, 256-bit ids are `Nat`.  TL (de)serialization of
overlay-node lists is embedded as the `PayloadM` sum: a Signature-rule payload
is opaque bytes, an OverlayNodes payload is the node list itself, and
`deserialize_overlay_nodes` fails exactly on non-OverlayNodes bytes.
Cryptographic hashing and signature verification are external collaborators
and enter as function parameters. -/

inductive UpdateRuleM where
  | signatureRule
  | overlayNodesRule
  | otherRule
  deriving DecidableEq

inductive PublicKeyM where
  | overlayKey (name : List Nat)
  | otherKey (data : Nat)
  deriving DecidableEq

structure DhtKeyM where
  id : Nat
  idx : Nat
  name : List Nat
  deriving DecidableEq

/-- overlay::node::Node, restricted to the fields the DHT core reads:
the node's id (public key) and its version. -/
structure OverlayNodeM where
  id : Nat
  version : Nat
  deriving DecidableEq

inductive PayloadM where
  | raw (bytes : List Nat)
  | overlayList (nodes : List OverlayNodeM)
  deriving DecidableEq

structure DhtKeyDescriptionM where
  id : PublicKeyM
  key : DhtKeyM
  signature : List Nat
  update_rule : UpdateRuleM
  deriving DecidableEq

structure DhtValueM where
  key : DhtKeyDescriptionM
  ttl : Nat
  signature : List Nat
  value : PayloadM
  deriving DecidableEq

/-- dht::node::Node (a routing-table record). -/
structure NodeM where
  id : Nat
  addr_list : List Nat
  signature : List Nat
  version : Nat
  deriving DecidableEq

/-! ## Value storage (lockfree::map::Map<DhtKeyId, ValueObject>)

The concurrent map is embedded as an association list;
`add_counted_object_to_map_with_update` becomes `storageUpdate`: the update
closure sees the current entry and returns `none` for "no change" (result
`false`), a new value for insert-or-replace (result `true`), or an error,
which leaves the map unchanged. -/

abbrev Storage := List (Nat × DhtValueM)

def storageGet : Storage → Nat → Option DhtValueM
  | [], _ => none
  | (k, v) :: rest, key => if k == key then some v else storageGet rest key

def storageSet : Storage → Nat → DhtValueM → Storage
  | [], key, v => [(key, v)]
  | (k, w) :: rest, key, v =>
    if k == key then (k, v) :: rest else (k, w) :: storageSet rest key v

def storageUpdate (st : Storage) (key : Nat)
    (f : Option DhtValueM → Except String (Option DhtValueM)) :
    Storage × Except String Bool :=
  match f (storageGet st key) with
  | .error e => (st, .error e)
  | .ok none => (st, .ok false)
  | .ok (some v) => (storageSet st key v, .ok true)

/-! ## DhtNode::search_dht_key (src/lib.rs lines 1177-1188)

The source takes `&self` and only calls `storage.get`; the embedding passes
the storage through explicitly so that the frame property (the read does not
mutate) is a provable statement rather than a typing accident. -/

def search_dht_key (st : Storage) (now : Nat) (key : Nat) : Option DhtValueM × Storage :=
  match storageGet st key with
  | some v => (if now < v.ttl then some v else none, st)
  | none => (none, st)

/-! ## Routing-table buckets and DhtNode::get_known_nodes (lines 648-664) -/

abbrev Bucket := List (List Nat × NodeM)

abbrev Buckets := List (Nat × Bucket)

def bucketsGet : Buckets → Nat → Option Bucket
  | [], _ => none
  | (k, b) :: rest, key => if k == key then some b else bucketsGet rest key

/-- All node records, walking buckets 0..=255 in index order. -/
def allBucketNodes (buckets : Buckets) : List NodeM :=
  ((List.range 256).map (fun i => ((bucketsGet buckets i).getD []).map Prod.snd)).flatten

/-- The collection loop of `get_known_nodes`: push records one at a time and
return as soon as the accumulator reaches `limit`. -/
def takeUntil (limit : Nat) (acc : List NodeM) : List NodeM → List NodeM
  | [] => acc
  | n :: rest =>
    let acc2 := acc ++ [n]
    if acc2.length = limit then acc2 else takeUntil limit acc2 rest

def get_known_nodes (buckets : Buckets) (limit : Nat) : Except String (List NodeM) :=
  if limit = 0 then .error "It is useless to ask for zero known nodes"
  else .ok (takeUntil limit [] (allBucketNodes buckets))

/-! ## DhtNode::process_find_value (lines 1010-1025) -/

inductive DhtValueResultM where
  | valueFound (v : DhtValueM)
  | valueNotFound (nodes : List NodeM)
  deriving DecidableEq

def process_find_value (st : Storage) (buckets : Buckets) (now : Nat) (key : Nat) (k : Nat) :
    Storage × Except String DhtValueResultM :=
  let found := search_dht_key st now key
  match found.1 with
  | some v => (found.2, .ok (.valueFound v))
  | none =>
    match get_known_nodes buckets k with
    | .error e => (found.2, .error e)
    | .ok nodes => (found.2, .ok (.valueNotFound nodes))

/-! ## DhtNode::process_store_signed_value (lines 1128-1153)

`verify_value` (value + key-description signatures under `key.id`) is
cryptography performed by the external key primitives; it enters as the
boolean parameter `verifyValue`. -/

def process_store_signed_value (verifyValue : DhtValueM → Bool) (st : Storage)
    (dht_key_id : Nat) (value : DhtValueM) : Storage × Except String Bool :=
  if verifyValue value then
    storageUpdate st dht_key_id (fun old =>
      match old with
      | some old_value =>
        if value.ttl ≤ old_value.ttl then .ok none else .ok (some value)
      | none => .ok (some value))
  else (st, .error "signature verification failed")

/-! ## DhtNode::process_store_overlay_nodes (lines 1046-1126) -/

def nodesName : List Nat := [110, 111, 100, 101, 115]

def dht_key_from_key_id (id : Nat) (name : List Nat) : DhtKeyM :=
  { id := id, idx := 0, name := name }

def deserialize_overlay_nodes : PayloadM → Except String (List OverlayNodeM)
  | .overlayList nodes => .ok nodes
  | .raw _ => .error "Wrong OverlayNodes"

/-- Inner scan of the merge loop: find the first existing record with the
incoming node's id; replace it when the incoming version is strictly larger,
abort the whole update otherwise (`return Ok(None)` in the source); append at
the end when no record matches. -/
def mergeOne (node : OverlayNodeM) : List OverlayNodeM → Option (List OverlayNodeM)
  | [] => some [node]
  | o :: rest =>
    if node.id == o.id then
      if o.version < node.version then some (node :: rest) else none
    else
      (mergeOne node rest).map (o :: ·)

def mergeAll (old_nodes : List OverlayNodeM) : List OverlayNodeM → Option (List OverlayNodeM)
  | [] => some old_nodes
  | n :: rest =>
    match mergeOne n old_nodes with
    | none => none
    | some old2 => mergeAll old2 rest

def overlay_merge_with (value : DhtValueM) (nodes : List OverlayNodeM) :
    Option PayloadM → Except String (Option DhtValueM)
  | old_payload => do
    let old_nodes ← match old_payload with
      | some pv => deserialize_overlay_nodes pv
      | none => .ok []
    match mergeAll old_nodes nodes with
    | none => .ok none
    | some merged => .ok (some { value with value := .overlayList merged })

/-- The update closure of `process_store_overlay_nodes`: an expired existing
entry is treated as empty, a strictly larger existing TTL aborts with "no
change", otherwise the existing payload is merged with the incoming nodes. -/
def overlay_update_fn (now : Nat) (value : DhtValueM) (nodes : List OverlayNodeM) :
    Option DhtValueM → Except String (Option DhtValueM)
  | some old_value =>
    if old_value.ttl < now then overlay_merge_with value nodes none
    else if value.ttl < old_value.ttl then .ok none
    else overlay_merge_with value nodes (some old_value.value)
  | none => overlay_merge_with value nodes none

def process_store_overlay_nodes (hashPK : PublicKeyM → Nat)
    (verifyNode : Nat → OverlayNodeM → Bool) (now : Nat)
    (st : Storage) (dht_key_id : Nat) (value : DhtValueM) : Storage × Except String Bool :=
  if value.signature ≠ [] then (st, .error "Wrong value signature for OverlayNodes")
  else if value.key.signature ≠ [] then (st, .error "Wrong key signature for OverlayNodes")
  else
    match value.key.id with
    | .otherKey _ => (st, .error "Wrong key description format for OverlayNodes")
    | .overlayKey nm =>
      let overlay_short_id := hashPK (.overlayKey nm)
      if dht_key_from_key_id overlay_short_id nodesName ≠ value.key.key then
        (st, .error "Wrong DHT key for OverlayNodes")
      else
        match deserialize_overlay_nodes value.value with
        | .error e => (st, .error e)
        | .ok nodes_list =>
          let nodes := nodes_list.reverse.filter (verifyNode overlay_short_id)
          if nodes = [] then (st, .error "Empty overlay nodes list")
          else storageUpdate st dht_key_id (overlay_update_fn now value nodes)

/-! ## DhtNode::process_store (lines 1031-1044) -/

inductive StoredM where
  | stored
  deriving DecidableEq

def process_store (hashDhtKey : DhtKeyM → Nat) (hashPK : PublicKeyM → Nat)
    (verifyNode : Nat → OverlayNodeM → Bool) (verifyValue : DhtValueM → Bool)
    (now : Nat) (st : Storage) (value : DhtValueM) : Storage × Except String StoredM :=
  let _dht_key_id := hashDhtKey value.key.key
  if value.ttl ≤ now then (st, .error "Ignore expired DHT value")
  else
    let sub :=
      match value.key.update_rule with
      | .signatureRule => process_store_signed_value verifyValue st (hashDhtKey value.key.key) value
      | .overlayNodesRule =>
        process_store_overlay_nodes hashPK verifyNode now st (hashDhtKey value.key.key) value
      | .otherRule => (st, .error "Unsupported store query")
    match sub.2 with
    | .error e => (sub.1, .error e)
    | .ok _ => (sub.1, .ok .stored)

/-! ## Claims C2, C5, C10, C4 -/

/-- C2: a Signature-rule store errors (and leaves the store unchanged) exactly
when verification fails; with a verified value, an existing entry under the
same DHT-key-hash is kept exactly when its ttl ≥ the incoming ttl (result
`false`) and replaced exactly when the incoming ttl is strictly larger. -/
theorem signed_value_store_rule (verifyValue : DhtValueM → Bool) (st : Storage)
    (key : Nat) (value : DhtValueM) :
    process_store_signed_value verifyValue st key value =
      if verifyValue value then
        match storageGet st key with
        | some old =>
          if value.ttl ≤ old.ttl then (st, .ok false)
          else (storageSet st key value, .ok true)
        | none => (storageSet st key value, .ok true)
      else (st, .error "signature verification failed") := by
  by_cases hv : verifyValue value
  · simp only [process_store_signed_value, storageUpdate, hv, if_true]
    cases h : storageGet st key with
    | none => simp
    | some old =>
      by_cases ht : value.ttl ≤ old.ttl
      · simp [ht]
      · simp [ht]
  · simp [process_store_signed_value, hv]

/-- C5: a STORE whose value has ttl ≤ now is rejected with an error before any
update rule is consulted, and the value store is unchanged. -/
theorem expired_store_rejected (hashDhtKey : DhtKeyM → Nat) (hashPK : PublicKeyM → Nat)
    (verifyNode : Nat → OverlayNodeM → Bool) (verifyValue : DhtValueM → Bool)
    (now : Nat) (st : Storage) (value : DhtValueM) (h : value.ttl ≤ now) :
    process_store hashDhtKey hashPK verifyNode verifyValue now st value =
      (st, .error "Ignore expired DHT value") := by
  simp [process_store, h]

/-- Witness for `expired_store_rejected`: ttl = now − 1. -/
theorem expired_store_rejected_witness :
    process_store (fun _ => 0) (fun _ => 0) (fun _ _ => true) (fun _ => true) 100 []
      { key := { id := .otherKey 0, key := dht_key_from_key_id 0 nodesName,
                 signature := [], update_rule := .signatureRule },
        ttl := 99, signature := [], value := .raw [] } =
      ([], .error "Ignore expired DHT value") :=
  expired_store_rejected _ _ _ _ 100 [] _ (by decide)

/-- C10: reading a value never mutates the store: `search_dht_key` returns the
storage unchanged (an expired entry is reported absent but not pruned), and
serving FIND_VALUE through `process_find_value` also leaves it unchanged. -/
theorem read_does_not_mutate (st : Storage) (buckets : Buckets) (now key k : Nat) :
    (search_dht_key st now key).2 = st ∧
    (process_find_value st buckets now key k).1 = st := by
  constructor
  · unfold search_dht_key
    cases storageGet st key <;> simp
  · unfold process_find_value search_dht_key
    cases h : storageGet st key with
    | none =>
      cases get_known_nodes buckets k <;> simp
    | some v =>
      by_cases hl : now < v.ttl
      · simp [hl]
      · cases get_known_nodes buckets k <;> simp [hl]

theorem takeUntil_eq_take (limit : Nat) :
    ∀ (l : List NodeM) (acc : List NodeM), acc.length < limit →
      takeUntil limit acc l = acc ++ l.take (limit - acc.length)
  | [], acc, _ => by simp [takeUntil]
  | n :: rest, acc, hacc => by
    by_cases hl : acc.length + 1 = limit
    · have h1 : limit - acc.length = 1 := by omega
      simp [takeUntil, hl, h1]
    · have hlt : (acc ++ [n]).length < limit := by
        simp only [List.length_append, List.length_cons, List.length_nil]
        omega
      have ih := takeUntil_eq_take limit rest (acc ++ [n]) hlt
      have h2 : limit - acc.length = (limit - (acc.length + 1)) + 1 := by omega
      simp only [takeUntil, List.length_append, List.length_cons, List.length_nil]
      rw [if_neg (by omega)]
      rw [ih]
      simp only [List.length_append, List.length_cons, List.length_nil]
      rw [h2, List.take_succ_cons]
      simp

/-- C4 (amended): a FIND_VALUE for an absent or expired key is answered with
`ValueNotFound` carrying up to `k` known nodes in bucket order and no error —
for every k ≥ 1; a k = 0 query instead propagates the error of
`get_known_nodes`, so the "never returns an error" guarantee holds only for
k ≥ 1. -/
theorem find_value_handler_characterization (st : Storage) (buckets : Buckets)
    (now key k : Nat) :
    process_find_value st buckets now key k =
      match (search_dht_key st now key).1 with
      | some v => (st, .ok (.valueFound v))
      | none =>
        if k = 0 then (st, .error "It is useless to ask for zero known nodes")
        else (st, .ok (.valueNotFound ((allBucketNodes buckets).take k))) := by
  unfold process_find_value
  cases hs : (search_dht_key st now key).1 with
  | some v =>
    have h2 : (search_dht_key st now key).2 = st := (read_does_not_mutate st buckets now key k).1
    simp [hs, h2]
  | none =>
    have h2 : (search_dht_key st now key).2 = st := (read_does_not_mutate st buckets now key k).1
    by_cases hk : k = 0
    · simp [hs, h2, hk, get_known_nodes]
    · have := takeUntil_eq_take k (allBucketNodes buckets) []
        (by simp only [List.length_nil]; omega)
      simp only [List.nil_append, Nat.sub_zero, List.length_nil] at this
      simp [hs, h2, get_known_nodes, hk, this]

/-- C4 counterexample: with k = 0 and the key absent, the FIND_VALUE handler
returns an error instead of a `ValueNotFound` response. -/
theorem find_value_zero_k_errors :
    process_find_value [] [] 0 7 0 =
      ([], .error "It is useless to ask for zero known nodes") := rfl

/-! ## Claim C1: the OverlayNodes merge -/

def idsOf (l : List OverlayNodeM) : List Nat := l.map OverlayNodeM.id

def isOverlayKey : PublicKeyM → Bool
  | .overlayKey _ => true
  | .otherKey _ => false

/-- The claim's premise: a well-formed non-empty OverlayNodes value carrying
the roster `R` under the canonical `nodes` key, every member passing overlay
verification. -/
def validOverlayValue (hashPK : PublicKeyM → Nat) (verifyNode : Nat → OverlayNodeM → Bool)
    (v : DhtValueM) (R : List OverlayNodeM) : Prop :=
  v.signature = [] ∧ v.key.signature = [] ∧ isOverlayKey v.key.id = true ∧
  v.key.key = dht_key_from_key_id (hashPK v.key.id) nodesName ∧
  v.value = .overlayList R ∧ R ≠ [] ∧
  ∀ node ∈ R, verifyNode (hashPK v.key.id) node = true

theorem storageGet_storageSet (key : Nat) (v : DhtValueM) :
    ∀ st : Storage, storageGet (storageSet st key v) key = some v
  | [] => by simp [storageGet, storageSet]
  | (k, w) :: rest => by
    by_cases hk : k == key
    · simp [storageGet, storageSet, hk]
    · simp only [storageSet, hk, if_false, Bool.false_eq_true]
      simp only [storageGet, hk, if_false, Bool.false_eq_true]
      exact storageGet_storageSet key v rest

theorem process_store_overlay_nodes_valid (hashPK : PublicKeyM → Nat)
    (verifyNode : Nat → OverlayNodeM → Bool) (now : Nat) (st : Storage) (key : Nat)
    (v : DhtValueM) (R : List OverlayNodeM)
    (hv : validOverlayValue hashPK verifyNode v R) :
    process_store_overlay_nodes hashPK verifyNode now st key v =
      storageUpdate st key (overlay_update_fn now v R.reverse) := by
  obtain ⟨hs, hks, hok, hkey, hval, hne, hall⟩ := hv
  cases hid : v.key.id with
  | otherKey d => rw [hid] at hok; simp [isOverlayKey] at hok
  | overlayKey nm =>
    have hfilter : R.reverse.filter (verifyNode (hashPK (.overlayKey nm))) = R.reverse := by
      apply List.filter_eq_self.mpr
      intro a ha
      rw [← hid]
      exact hall a (List.mem_reverse.mp ha)
    have hrne : R.reverse ≠ [] := by
      intro h
      exact hne (List.reverse_eq_nil_iff.mp h)
    rw [hid] at hkey
    simp only [process_store_overlay_nodes, hs, hks, hid, hkey, hval,
      deserialize_overlay_nodes, hfilter, hrne]
    simp

theorem mergeOne_full (n : OverlayNodeM) :
    ∀ old : List OverlayNodeM, (idsOf old).Nodup →
      (∀ o ∈ old, o.id = n.id → o.version < n.version) →
      ∃ l', mergeOne n old = some l' ∧
        (∀ x, x ∈ l' ↔ (x = n ∨ (x ∈ old ∧ x.id ≠ n.id))) ∧
        (idsOf l').Nodup ∧
        (∀ i, i ∈ idsOf l' ↔ (i ∈ idsOf old ∨ i = n.id))
  | [], _, _ => ⟨[n], rfl, by simp, by simp [idsOf], by simp [idsOf]⟩
  | o :: rest, hnd, hv => by
    have hnd' : (idsOf rest).Nodup ∧ o.id ∉ idsOf rest := by
      have : (o.id :: idsOf rest).Nodup := by simpa [idsOf] using hnd
      exact ⟨this.of_cons, (List.nodup_cons.mp this).1⟩
    by_cases hid : n.id = o.id
    · have hver : o.version < n.version := hv o (List.mem_cons_self _ _) hid.symm
      refine ⟨n :: rest, ?_, ?_, ?_, ?_⟩
      · simp [mergeOne, hid, hver]
      · intro x
        constructor
        · intro hx
          rcases List.mem_cons.mp hx with hx | hx
          · exact Or.inl hx
          · refine Or.inr ⟨List.mem_cons_of_mem _ hx, ?_⟩
            intro hxid
            apply hnd'.2
            rw [← hid, ← hxid]
            exact List.mem_map_of_mem _ hx
        · rintro (hx | ⟨hx, hxid⟩)
          · exact hx ▸ List.mem_cons_self _ _
          · rcases List.mem_cons.mp hx with hx | hx
            · exact absurd (hx ▸ hid.symm : x.id = n.id) (by simpa using hxid)
            · exact List.mem_cons_of_mem _ hx
      · have : idsOf (n :: rest) = n.id :: idsOf rest := by simp [idsOf]
        rw [this, List.nodup_cons]
        exact ⟨hid ▸ hnd'.2, hnd'.1⟩
      · intro i
        have h1 : idsOf (n :: rest) = n.id :: idsOf rest := by simp [idsOf]
        have h2 : idsOf (o :: rest) = o.id :: idsOf rest := by simp [idsOf]
        rw [h1, h2]
        simp only [List.mem_cons, hid]
        tauto
    · have hv' : ∀ p ∈ rest, p.id = n.id → p.version < n.version :=
        fun p hp => hv p (List.mem_cons_of_mem _ hp)
      obtain ⟨l'', hm, hmem, hndl, hids⟩ := mergeOne_full n rest hnd'.1 hv'
      refine ⟨o :: l'', ?_, ?_, ?_, ?_⟩
      · simp only [mergeOne]
        rw [if_neg (by simpa using hid)]
        rw [hm]
        rfl
      · intro x
        rw [List.mem_cons, hmem x]
        constructor
        · rintro (hx | hx | ⟨hx, hxid⟩)
          · refine Or.inr ⟨?_, ?_⟩
            · rw [hx]; exact List.mem_cons_self _ _
            · rw [hx]; intro h; exact hid h.symm
          · exact Or.inl hx
          · exact Or.inr ⟨List.mem_cons_of_mem _ hx, hxid⟩
        · rintro (hx | ⟨hx, hxid⟩)
          · exact Or.inr (Or.inl hx)
          · rcases List.mem_cons.mp hx with hx | hx
            · exact Or.inl hx
            · exact Or.inr (Or.inr ⟨hx, hxid⟩)
      · have : idsOf (o :: l'') = o.id :: idsOf l'' := by simp [idsOf]
        rw [this, List.nodup_cons]
        refine ⟨?_, hndl⟩
        intro hin
        rcases (hids o.id).mp hin with hin | hin
        · exact hnd'.2 hin
        · exact hid hin.symm
      · intro i
        have h1 : idsOf (o :: l'') = o.id :: idsOf l'' := by simp [idsOf]
        have h2 : idsOf (o :: rest) = o.id :: idsOf rest := by simp [idsOf]
        rw [h1, h2]
        simp only [List.mem_cons, hids i]
        tauto

theorem mergeAll_full :
    ∀ (inc old : List OverlayNodeM), (idsOf old).Nodup → (idsOf inc).Nodup →
      (∀ n ∈ inc, ∀ o ∈ old, o.id = n.id → o.version < n.version) →
      ∃ L, mergeAll old inc = some L ∧
        (∀ x, x ∈ L ↔ (x ∈ inc ∨ (x ∈ old ∧ x.id ∉ idsOf inc))) ∧
        (idsOf L).Nodup ∧
        (∀ i, i ∈ idsOf L ↔ (i ∈ idsOf old ∨ i ∈ idsOf inc))
  | [], old, hndO, _, _ => ⟨old, rfl, by simp [idsOf], hndO, by simp [idsOf]⟩
  | n :: rest, old, hndO, hndI, hv => by
    have hndI' : (n.id :: idsOf rest).Nodup := by simpa [idsOf] using hndI
    have hnidrest : n.id ∉ idsOf rest := (List.nodup_cons.mp hndI').1
    obtain ⟨l', hm1, hmem1, hnd1, hids1⟩ :=
      mergeOne_full n old hndO (fun o ho => hv n (List.mem_cons_self _ _) o ho)
    have hv' : ∀ m ∈ rest, ∀ o ∈ l', o.id = m.id → o.version < m.version := by
      intro m hm o ho hom
      rcases (hmem1 o).mp ho with ho' | ⟨ho', _⟩
      · exfalso
        apply hnidrest
        rw [show n.id = m.id from by rw [← ho', hom]]
        exact List.mem_map_of_mem _ hm
      · exact hv m (List.mem_cons_of_mem _ hm) o ho' hom
    obtain ⟨L, hm2, hmem2, hnd2, hids2⟩ :=
      mergeAll_full rest l' hnd1 hndI'.of_cons hv'
    refine ⟨L, ?_, ?_, hnd2, ?_⟩
    · simp only [mergeAll, hm1]
      exact hm2
    · intro x
      rw [hmem2 x]
      have hidscons : idsOf (n :: rest) = n.id :: idsOf rest := by simp [idsOf]
      constructor
      · rintro (hx | ⟨hx, hxid⟩)
        · exact Or.inl (List.mem_cons_of_mem _ hx)
        · rcases (hmem1 x).mp hx with hx' | ⟨hx', hxid'⟩
          · exact Or.inl (hx' ▸ List.mem_cons_self _ _)
          · refine Or.inr ⟨hx', ?_⟩
            rw [hidscons, List.mem_cons]
            rintro (h | h)
            · exact hxid' h
            · exact hxid h
      · rintro (hx | ⟨hx, hxid⟩)
        · rcases List.mem_cons.mp hx with hx | hx
          · refine Or.inr ⟨(hmem1 x).mpr (Or.inl hx), ?_⟩
            rw [hx]
            exact hnidrest
          · exact Or.inl hx
        · rw [hidscons, List.mem_cons] at hxid
          push_neg at hxid
          exact Or.inr ⟨(hmem1 x).mpr (Or.inr ⟨hx, hxid.1⟩), hxid.2⟩
    · intro i
      rw [hids2 i]
      have hidscons : idsOf (n :: rest) = n.id :: idsOf rest := by simp [idsOf]
      rw [hidscons]
      simp only [List.mem_cons, hids1 i]
      tauto

/-- C1 (amended): for valid non-empty rosters R1, R2 with internally distinct
node IDs, stored successively under the same overlay `nodes` key (R2's ttl not
smaller than the stored entry's, the stored entry not expired), **provided
every node of R2 whose ID also occurs in R1 carries a strictly larger
version**, the stored roster afterwards contains exactly the nodes of R2
together with the nodes of R1 whose ID does not occur in R2 — i.e. for each
node ID the record with the larger version, records present in only one
roster kept.  (Without the proviso the source aborts the whole merge:
see the counterexample.) -/
theorem overlay_nodes_merge_amended (hashPK : PublicKeyM → Nat)
    (verifyNode : Nat → OverlayNodeM → Bool) (now : Nat) (st : Storage) (key : Nat)
    (v1 v2 : DhtValueM) (R1 R2 : List OverlayNodeM)
    (hv1 : validOverlayValue hashPK verifyNode v1 R1)
    (hv2 : validOverlayValue hashPK verifyNode v2 R2)
    (hnd1 : (idsOf R1).Nodup) (hnd2 : (idsOf R2).Nodup)
    (habsent : storageGet st key = none)
    (hlive : now ≤ v1.ttl) (httl : v1.ttl ≤ v2.ttl)
    (hver : ∀ n ∈ R2, ∀ o ∈ R1, o.id = n.id → o.version < n.version) :
    (process_store_overlay_nodes hashPK verifyNode now st key v1).2 = .ok true ∧
    (process_store_overlay_nodes hashPK verifyNode now
        (process_store_overlay_nodes hashPK verifyNode now st key v1).1 key v2).2 = .ok true ∧
    ∃ L : List OverlayNodeM,
      storageGet (process_store_overlay_nodes hashPK verifyNode now
          (process_store_overlay_nodes hashPK verifyNode now st key v1).1 key v2).1 key =
        some { v2 with value := .overlayList L } ∧
      ∀ x, x ∈ L ↔ (x ∈ R2 ∨ (x ∈ R1 ∧ ∀ m ∈ R2, m.id ≠ x.id)) := by
  have hrev1 : (idsOf R1.reverse).Nodup := by
    have : idsOf R1.reverse = (idsOf R1).reverse := by simp [idsOf]
    rw [this]
    exact List.nodup_reverse.mpr hnd1
  have hrev2 : (idsOf R2.reverse).Nodup := by
    have : idsOf R2.reverse = (idsOf R2).reverse := by simp [idsOf]
    rw [this]
    exact List.nodup_reverse.mpr hnd2
  obtain ⟨L1, hL1eq, hL1mem, hL1nd, hL1ids⟩ :=
    mergeAll_full R1.reverse [] (by simp [idsOf]) hrev1 (by simp)
  have hstep1 : process_store_overlay_nodes hashPK verifyNode now st key v1 =
      (storageSet st key { v1 with value := .overlayList L1 }, .ok true) := by
    rw [process_store_overlay_nodes_valid hashPK verifyNode now st key v1 R1 hv1]
    simp only [storageUpdate, habsent, overlay_update_fn, overlay_merge_with,
      Except.bind, bind, hL1eq]
  have hget1 : storageGet (process_store_overlay_nodes hashPK verifyNode now st key v1).1 key =
      some { v1 with value := .overlayList L1 } := by
    rw [hstep1]
    exact storageGet_storageSet key _ st
  have hvmerge : ∀ n ∈ R2.reverse, ∀ o ∈ L1, o.id = n.id → o.version < n.version := by
    intro n hn o ho hid
    rcases (hL1mem o).mp ho with ho' | ⟨ho', _⟩
    · exact hver n (List.mem_reverse.mp hn) o (List.mem_reverse.mp ho') hid
    · simp at ho'
  obtain ⟨L, hLeq, hLmem, hLnd, hLids⟩ := mergeAll_full R2.reverse L1 hL1nd hrev2 hvmerge
  have hstep2 : process_store_overlay_nodes hashPK verifyNode now
      (process_store_overlay_nodes hashPK verifyNode now st key v1).1 key v2 =
      (storageSet (process_store_overlay_nodes hashPK verifyNode now st key v1).1 key
        { v2 with value := .overlayList L }, .ok true) := by
    rw [process_store_overlay_nodes_valid hashPK verifyNode now _ key v2 R2 hv2]
    simp only [storageUpdate, hget1, overlay_update_fn]
    rw [if_neg (by omega), if_neg (by omega)]
    simp only [overlay_merge_with, deserialize_overlay_nodes, Except.bind, bind, hLeq]
  refine ⟨by rw [hstep1], by rw [hstep2], L, ?_, ?_⟩
  · rw [hstep2]
    exact storageGet_storageSet key _ _
  · intro x
    rw [hLmem x]
    constructor
    · rintro (hx | ⟨hx, hxid⟩)
      · exact Or.inl (List.mem_reverse.mp hx)
      · rcases (hL1mem x).mp hx with hx' | ⟨hx', _⟩
        · refine Or.inr ⟨List.mem_reverse.mp hx', ?_⟩
          intro m hm hmid
          apply hxid
          rw [← hmid]
          exact List.mem_map_of_mem _ (List.mem_reverse.mpr hm)
        · simp at hx'
    · rintro (hx | ⟨hx, hxid⟩)
      · exact Or.inl (List.mem_reverse.mpr hx)
      · refine Or.inr ⟨(hL1mem x).mpr (Or.inl (List.mem_reverse.mpr hx)), ?_⟩
        intro hin
        rw [idsOf] at hin
        rcases List.mem_map.mp hin with ⟨m, hm, hmid⟩
        exact hxid m (List.mem_reverse.mp hm) hmid

def cexHashPK : PublicKeyM → Nat := fun _ => 77

def cexVerify : Nat → OverlayNodeM → Bool := fun _ _ => true

def cexVal (ttl : Nat) (nodes : List OverlayNodeM) : DhtValueM :=
  { key := { id := .overlayKey [], key := dht_key_from_key_id 77 nodesName,
             signature := [], update_rule := .overlayNodesRule },
    ttl := ttl, signature := [], value := .overlayList nodes }

/-- C1 counterexample: R1 = {node 1 @ version 5}, R2 = {node 1 @ version 3,
node 2 @ version 1}; both rosters are valid and non-empty and R2's ttl equals
the stored ttl, yet the second store is a no-op (`.ok false`): node 2, present
only in R2, is NOT appended, because the source aborts the whole merge as soon
as one incoming node is not strictly newer. -/
theorem overlay_merge_drops_fresh_node :
    (process_store_overlay_nodes cexHashPK cexVerify 10
      (process_store_overlay_nodes cexHashPK cexVerify 10 [] 5
        (cexVal 100 [⟨1, 5⟩])).1 5
      (cexVal 100 [⟨1, 3⟩, ⟨2, 1⟩])).2 = .ok false ∧
    storageGet (process_store_overlay_nodes cexHashPK cexVerify 10
      (process_store_overlay_nodes cexHashPK cexVerify 10 [] 5
        (cexVal 100 [⟨1, 5⟩])).1 5
      (cexVal 100 [⟨1, 3⟩, ⟨2, 1⟩])).1 5 = some (cexVal 100 [⟨1, 5⟩]) := by
  constructor <;> rfl

/-- Witness for `overlay_nodes_merge_amended` at R1 = {1@5}, R2 = {1@7, 2@1}. -/
theorem overlay_nodes_merge_amended_witness :
    (process_store_overlay_nodes cexHashPK cexVerify 10 [] 5 (cexVal 100 [⟨1, 5⟩])).2 =
      .ok true ∧
    (process_store_overlay_nodes cexHashPK cexVerify 10
        (process_store_overlay_nodes cexHashPK cexVerify 10 [] 5
          (cexVal 100 [⟨1, 5⟩])).1 5 (cexVal 200 [⟨1, 7⟩, ⟨2, 1⟩])).2 = .ok true ∧
    ∃ L : List OverlayNodeM,
      storageGet (process_store_overlay_nodes cexHashPK cexVerify 10
          (process_store_overlay_nodes cexHashPK cexVerify 10 [] 5
            (cexVal 100 [⟨1, 5⟩])).1 5 (cexVal 200 [⟨1, 7⟩, ⟨2, 1⟩])).1 5 =
        some { cexVal 200 [⟨1, 7⟩, ⟨2, 1⟩] with value := .overlayList L } ∧
      ∀ x, x ∈ L ↔ (x ∈ ([⟨1, 7⟩, ⟨2, 1⟩] : List OverlayNodeM) ∨
        (x ∈ ([⟨1, 5⟩] : List OverlayNodeM) ∧
          ∀ m ∈ ([⟨1, 7⟩, ⟨2, 1⟩] : List OverlayNodeM), m.id ≠ x.id)) :=
  overlay_nodes_merge_amended cexHashPK cexVerify 10 [] 5
    (cexVal 100 [⟨1, 5⟩]) (cexVal 200 [⟨1, 7⟩, ⟨2, 1⟩])
    [⟨1, 5⟩] [⟨1, 7⟩, ⟨2, 1⟩]
    (by constructor <;> first | rfl | (constructor <;> first | rfl | (constructor <;> first | rfl | (constructor <;> first | rfl | (constructor <;> first | rfl | (constructor <;> first | rfl | decide))))))
    (by constructor <;> first | rfl | (constructor <;> first | rfl | (constructor <;> first | rfl | (constructor <;> first | rfl | (constructor <;> first | rfl | (constructor <;> first | rfl | decide))))))
    (by decide) (by decide) rfl (by decide) (by decide) (by decide)

/-! ## Peer scorer (DhtNode::set_good_peer, set_query_result, get_known_peer,
src/lib.rs lines 627-645, 1190-1235)

`bad_peers` maps a peer's key id (32 bytes) to an `AtomicU8` score; the
embedding is an association list and the atomic read-modify-write sequences
(`compare_exchange` loop, `fetch_add`) become their sequential effect.  The
`u8` addition is taken `% 256`. -/

def MAX_FAIL_COUNT : Nat := 5

abbrev ScoreMap := List (List Nat × Nat)

def scoreGet : ScoreMap → List Nat → Option Nat
  | [], _ => none
  | (k, c) :: rest, p => if k == p then some c else scoreGet rest p

def scoreSet : ScoreMap → List Nat → Nat → ScoreMap
  | [], p, c => [(p, c)]
  | (k, d) :: rest, p, c => if k == p then (k, c) :: rest else (k, d) :: scoreSet rest p c

/-- Failure path of `set_query_result`: create the counter at 0 when absent,
then add 2 (saturating only through the `cnt ≤ MAX_FAIL_COUNT` guard). -/
def set_bad_score (bad : ScoreMap) (p : List Nat) : ScoreMap :=
  match scoreGet bad p with
  | some cnt => if cnt ≤ MAX_FAIL_COUNT then scoreSet bad p ((cnt + 2) % 256) else bad
  | none => scoreSet (scoreSet bad p 0) p ((0 + 2) % 256)

def set_good_peer (bad : ScoreMap) (p : List Nat) : ScoreMap :=
  match scoreGet bad p with
  | some cnt => if MAX_FAIL_COUNT ≤ cnt then scoreSet bad p (cnt - 1) else bad
  | none => bad

def set_query_result (bad : ScoreMap) (p : List Nat) (success : Bool) : ScoreMap :=
  if success then set_good_peer bad p else set_bad_score bad p

/-- The skip loop of `get_known_peer` over the known-peers list: a peer whose
score is ≥ MAX_FAIL_COUNT is passed over. -/
def get_known_peer_from (bad : ScoreMap) : List (List Nat) → Option (List Nat)
  | [] => none
  | p :: rest =>
    match scoreGet bad p with
    | some cnt => if MAX_FAIL_COUNT ≤ cnt then get_known_peer_from bad rest else some p
    | none => some p

def failTimes (bad : ScoreMap) (p : List Nat) : Nat → ScoreMap
  | 0 => bad
  | n + 1 => set_bad_score (failTimes bad p n) p

/-- C6 (amended): after 5 consecutive failed queries a fresh peer's score is
0→2→4→6→6→6 (the third failure overshoots the cap, the guard then saturates),
so the peer is skipped by `get_known_peer`; ONE subsequent successful query
drops the score only to 5, which is still ≥ MAX_FAIL_COUNT, so the peer is
STILL skipped; after a SECOND success (score 4) it is returned again. -/
theorem scorer_exclusion_recovery (p : List Nat) :
    get_known_peer_from (failTimes [] p 5) [p] = none ∧
    get_known_peer_from (set_good_peer (failTimes [] p 5) p) [p] = none ∧
    get_known_peer_from (set_good_peer (set_good_peer (failTimes [] p 5) p) p) [p] = some p := by
  have h5 : failTimes [] p 5 = [(p, 6)] := by
    simp [failTimes, set_bad_score, scoreGet, scoreSet, MAX_FAIL_COUNT]
  have hg1 : set_good_peer [(p, 6)] p = [(p, 5)] := by
    simp [set_good_peer, scoreGet, scoreSet, MAX_FAIL_COUNT]
  have hg2 : set_good_peer [(p, 5)] p = [(p, 4)] := by
    simp [set_good_peer, scoreGet, scoreSet, MAX_FAIL_COUNT]
  rw [h5]
  refine ⟨?_, ?_, ?_⟩
  · simp [get_known_peer_from, scoreGet, MAX_FAIL_COUNT]
  · rw [hg1]
    simp [get_known_peer_from, scoreGet, MAX_FAIL_COUNT]
  · rw [hg1, hg2]
    simp [get_known_peer_from, scoreGet, MAX_FAIL_COUNT]

/-- C6 counterexample: after MAX_FAIL_COUNT failed queries and ONE subsequent
successful query, the peer is still NOT returned by `get_known_peer` (its
score is 5, and the skip test is `score ≥ MAX_FAIL_COUNT`). -/
theorem scorer_one_success_still_skipped :
    get_known_peer_from (set_good_peer (failTimes [] [0] 5) [0]) [[0]] = none ∧
    scoreGet (set_good_peer (failTimes [] [0] 5) [0]) [0] = some 5 := by
  constructor <;> rfl

/-! ## DhtNode::add_peer (src/lib.rs lines 294-350)

`verify_other_node`, `parse_address_list` and `AdnlNode::add_peer` are
link-layer / crypto collaborators and enter as the `AdnlModel` parameter.
`known_peers` is the bounded FIFO `AddressCache` embedded as a list (the
65,536-entry eviction is not exercised by any claim); `put` answers whether
the id was new.  Buckets reuse the `Buckets` association-list model. -/

structure AdnlModel where
  verifyNode : NodeM → Bool
  parseAddr : List Nat → Option Nat
  addPeer : List Nat → Nat → Nat → Option (List Nat)

structure DhtPeersState where
  selfId : List Nat
  known_peers : List (List Nat)
  buckets : Buckets
  bad_peers : ScoreMap

def bucketGetNode : Bucket → List Nat → Option NodeM
  | [], _ => none
  | (k, n) :: rest, key => if k == key then some n else bucketGetNode rest key

def bucketSetNode : Bucket → List Nat → NodeM → Bucket
  | [], key, n => [(key, n)]
  | (k, m) :: rest, key, n =>
    if k == key then (k, n) :: rest else (k, m) :: bucketSetNode rest key n

def bucketsSet : Buckets → Nat → Bucket → Buckets
  | [], key, b => [(key, b)]
  | (k, c) :: rest, key, b =>
    if k == key then (k, b) :: rest else (k, c) :: bucketsSet rest key b

/-- The bucket-record closure of `add_peer`: keep the stored record unless the
incoming version is strictly larger. -/
def bucketNodeUpdate (inner : Bucket) (ret : List Nat) (peer : NodeM) : Bucket :=
  match bucketGetNode inner ret with
  | some old => if peer.version ≤ old.version then inner else bucketSetNode inner ret peer
  | none => bucketSetNode inner ret peer

/-- Models add_unbound_object_to_map (create the bucket when absent) followed
by add_counted_object_to_map_with_update on the bucket. -/
def bucketsUpdate (buckets : Buckets) (aff : Nat) (ret : List Nat) (peer : NodeM) : Buckets :=
  let buckets1 :=
    match bucketsGet buckets aff with
    | some _ => buckets
    | none => bucketsSet buckets aff []
  match bucketsGet buckets1 aff with
  | some inner => bucketsSet buckets1 aff (bucketNodeUpdate inner ret peer)
  | none => buckets1

def add_peer (A : AdnlModel) (st : DhtPeersState) (peer : NodeM) :
    DhtPeersState × Option (List Nat) :=
  if ¬ A.verifyNode peer then (st, none)
  else
    match A.parseAddr peer.addr_list with
    | none => (st, none)
    | some addr =>
      match A.addPeer st.selfId addr peer.id with
      | none => (st, none)
      | some ret =>
        if ret ∈ st.known_peers then
          ({ st with bad_peers := set_good_peer st.bad_peers ret }, some ret)
        else
          ({ st with known_peers := st.known_peers ++ [ret],
                     buckets := bucketsUpdate st.buckets (get_affinity st.selfId ret) ret peer },
           some ret)

theorem bucketGetNode_bucketSetNode (key : List Nat) (n : NodeM) :
    ∀ b : Bucket, bucketGetNode (bucketSetNode b key n) key = some n
  | [] => by simp [bucketGetNode, bucketSetNode]
  | (k, m) :: rest => by
    by_cases hk : k == key
    · simp [bucketGetNode, bucketSetNode, hk]
    · simp only [bucketSetNode, hk, if_false, Bool.false_eq_true]
      simp only [bucketGetNode, hk, if_false, Bool.false_eq_true]
      exact bucketGetNode_bucketSetNode key n rest

theorem bucketsGet_bucketsSet (key : Nat) (b : Bucket) :
    ∀ bs : Buckets, bucketsGet (bucketsSet bs key b) key = some b
  | [] => by simp [bucketsGet, bucketsSet]
  | (k, c) :: rest => by
    by_cases hk : k == key
    · simp [bucketsGet, bucketsSet, hk]
    · simp only [bucketsSet, hk, if_false, Bool.false_eq_true]
      simp only [bucketsGet, hk, if_false, Bool.false_eq_true]
      exact bucketsGet_bucketsSet key b rest

theorem bucketsSet_self (key : Nat) :
    ∀ (bs : Buckets) (b : Bucket), bucketsGet bs key = some b → bucketsSet bs key b = bs
  | [], b, h => by simp [bucketsGet] at h
  | (k, c) :: rest, b, h => by
    by_cases hk : k == key
    · simp only [bucketsGet, hk, if_true] at h
      simp only [bucketsSet, hk, if_true]
      rw [Option.some_inj] at h
      rw [h]
    · simp only [bucketsGet, hk, if_false, Bool.false_eq_true] at h
      simp only [bucketsSet, hk, if_false, Bool.false_eq_true]
      rw [bucketsSet_self key rest b h]

/-- C8: when `add_peer` accepts a node whose id is new to the known-peer set
but already has a bucket record, the record with the larger version is kept:
the stored record is replaced iff the incoming version is strictly larger, and
otherwise (in particular for equal versions) the buckets are left entirely
unchanged. -/
theorem add_peer_version_policy (A : AdnlModel) (st : DhtPeersState) (peer : NodeM)
    (addr : Nat) (ret : List Nat) (inner : Bucket) (old : NodeM)
    (hverify : A.verifyNode peer = true)
    (hparse : A.parseAddr peer.addr_list = some addr)
    (hadd : A.addPeer st.selfId addr peer.id = some ret)
    (hnew : ret ∉ st.known_peers)
    (hbucket : bucketsGet st.buckets (get_affinity st.selfId ret) = some inner)
    (hold : bucketGetNode inner ret = some old) :
    bucketGetNode
        ((bucketsGet (add_peer A st peer).1.buckets (get_affinity st.selfId ret)).getD []) ret =
      some (if old.version < peer.version then peer else old) ∧
    (¬ old.version < peer.version → (add_peer A st peer).1.buckets = st.buckets) := by
  have hstep : (add_peer A st peer).1.buckets =
      bucketsUpdate st.buckets (get_affinity st.selfId ret) ret peer := by
    simp [add_peer, hverify, hparse, hadd, hnew]
  have hupd : bucketsUpdate st.buckets (get_affinity st.selfId ret) ret peer =
      bucketsSet st.buckets (get_affinity st.selfId ret) (bucketNodeUpdate inner ret peer) := by
    unfold bucketsUpdate
    simp only [hbucket]
  rw [hstep, hupd]
  simp only [bucketNodeUpdate, hold]
  by_cases hv : peer.version ≤ old.version
  · rw [if_pos hv]
    rw [bucketsSet_self _ _ _ hbucket]
    constructor
    · rw [hbucket]
      simp only [Option.getD_some]
      rw [hold, if_neg (by omega)]
    · intro _
      rfl
  · rw [if_neg hv]
    constructor
    · rw [bucketsGet_bucketsSet]
      simp only [Option.getD_some]
      rw [bucketGetNode_bucketSetNode, if_pos (by omega)]
    · intro h
      omega

/-- C9: when the accepted node's id is already in the known-peer set,
`add_peer` leaves the buckets (and the known-peer list) entirely unchanged —
even if the incoming record carries a larger version — and the only state
change is the good-peer score recovery for that peer. -/
theorem add_peer_known_id_frame (A : AdnlModel) (st : DhtPeersState) (peer : NodeM)
    (addr : Nat) (ret : List Nat)
    (hverify : A.verifyNode peer = true)
    (hparse : A.parseAddr peer.addr_list = some addr)
    (hadd : A.addPeer st.selfId addr peer.id = some ret)
    (hknown : ret ∈ st.known_peers) :
    (add_peer A st peer).1.buckets = st.buckets ∧
    (add_peer A st peer).1.known_peers = st.known_peers ∧
    (add_peer A st peer).1.bad_peers = set_good_peer st.bad_peers ret ∧
    (add_peer A st peer).2 = some ret := by
  simp [add_peer, hverify, hparse, hadd, hknown]

def w8selfId : List Nat := List.replicate 32 0

def w8ret : List Nat := 5 :: List.replicate 31 0

def w8A : AdnlModel :=
  { verifyNode := fun _ => true,
    parseAddr := fun _ => some 9,
    addPeer := fun _ _ pk => some (pk :: List.replicate 31 0) }

def w8old : NodeM := { id := 5, addr_list := [2], signature := [], version := 3 }

def w8peer : NodeM := { id := 5, addr_list := [1], signature := [], version := 7 }

def w8st : DhtPeersState :=
  { selfId := w8selfId, known_peers := [],
    buckets := [(get_affinity w8selfId w8ret, [(w8ret, w8old)])], bad_peers := [] }

/-- Witness for `add_peer_version_policy` at a concrete state (incoming
version 7 beats stored version 3). -/
theorem add_peer_version_policy_witness :
    bucketGetNode
        ((bucketsGet (add_peer w8A w8st w8peer).1.buckets
            (get_affinity w8st.selfId w8ret)).getD []) w8ret =
      some (if w8old.version < w8peer.version then w8peer else w8old) ∧
    (¬ w8old.version < w8peer.version → (add_peer w8A w8st w8peer).1.buckets = w8st.buckets) :=
  add_peer_version_policy w8A w8st w8peer 9 w8ret [(w8ret, w8old)] w8old
    rfl rfl rfl (by decide) (by decide) (by decide)

def w9st : DhtPeersState :=
  { selfId := w8selfId, known_peers := [w8ret],
    buckets := [(get_affinity w8selfId w8ret, [(w8ret, w8old)])], bad_peers := [] }

/-- Witness for `add_peer_known_id_frame` at a concrete state. -/
theorem add_peer_known_id_frame_witness :
    (add_peer w8A w9st w8peer).1.buckets = w9st.buckets ∧
    (add_peer w8A w9st w8peer).1.known_peers = w9st.known_peers ∧
    (add_peer w8A w9st w8peer).1.bad_peers = set_good_peer w9st.bad_peers w8ret ∧
    (add_peer w8A w9st w8peer).2 = some w8ret :=
  add_peer_known_id_frame w8A w9st w8peer 9 w8ret rfl rfl rfl (by decide)

/-! ## Claim C7: DhtIterator::update (src/lib.rs lines 80-128)

The iterator's `order` is a list of (effective affinity, peer id) pairs.
`update` pulls the peers not yet seen by the resumable cursor — modelled, per
the spec's description of the external `AddressCache`, as a batch of
newly-visible peers delivered together with the current score table — skipping
unhealthy peers (the skip is performed by `get_known_peer`), computes each
peer's effective affinity (`get_affinity` minus its score, saturating), pushes
it subject to the admission filter, sorts ascending by affinity, and drains
the front while more than MAX_TASKS entries remain and the front's affinity is
below the top's.  A run is a fold of such update calls; the dropped elements
are accumulated for the invariant. -/

def MAX_TASKS : Nat := 5

abbrev OrderList := List (Nat × List Nat)

/-- Effective affinity: `get_affinity(peer, key).saturating_sub(score)`. -/
def effAffinity (bad : ScoreMap) (key : List Nat) (peer : List Nat) : Nat :=
  match scoreGet bad peer with
  | some s => get_affinity peer key - s
  | none => get_affinity peer key

/-- The health test of `get_known_peer`: skipped iff score ≥ MAX_FAIL_COUNT. -/
def healthyPeer (bad : ScoreMap) (peer : List Nat) : Bool :=
  match scoreGet bad peer with
  | some s => decide (s < MAX_FAIL_COUNT)
  | none => true

/-- The admission filter inside the pull loop: push iff the current last
element's affinity is ≤ the candidate's, or fewer than MAX_TASKS entries. -/
def pushAdmit (order : OrderList) (aff : Nat) : Bool :=
  match order.getLast? with
  | some (top, _) => decide (top ≤ aff) || decide (order.length < MAX_TASKS)
  | none => true

def pushPeer (order : OrderList) (aff : Nat) (p : List Nat) : OrderList :=
  if pushAdmit order aff then order ++ [(aff, p)] else order

def pullLoop (bad : ScoreMap) (key : List Nat) : List (List Nat) → OrderList → OrderList
  | [], order => order
  | p :: rest, order =>
    if healthyPeer bad p then
      pullLoop bad key rest (pushPeer order (effAffinity bad key p) p)
    else
      pullLoop bad key rest order

/-- The drain loop, instrumented to also return the drained prefix: the first
component is the source's `order` after `drain(0..drop_to)`, the second the
dropped elements. -/
def dropLoopD (top : Nat) : OrderList → OrderList × OrderList
  | [] => ([], [])
  | (a, p) :: rest =>
    if MAX_TASKS < rest.length + 1 ∧ a < top then
      ((dropLoopD top rest).1, (a, p) :: (dropLoopD top rest).2)
    else ((a, p) :: rest, [])

/-- One `DhtIterator::update` call: pull, sort ascending by affinity
(`sort_unstable_by_key`), drain the front.  First component: the new `order`;
second: the elements dropped from `order` by this call. -/
def updateFull (bad : ScoreMap) (key : List Nat) (order : OrderList)
    (newPeers : List (List Nat)) : OrderList × OrderList :=
  let o1 := pullLoop bad key newPeers order
  let o2 := List.insertionSort (fun x y => x.1 ≤ y.1) o1
  match o2.getLast? with
  | none => (o2, [])
  | some (top, _) => dropLoopD top o2

/-- A sequence of update calls, accumulating dropped elements. -/
def runUpdates (key : List Nat) :
    List (ScoreMap × List (List Nat)) → OrderList × OrderList → OrderList × OrderList
  | [], st => st
  | (bad, peers) :: rest, st =>
    runUpdates key rest
      ((updateFull bad key st.1 peers).1, st.2 ++ (updateFull bad key st.1 peers).2)

def healthyCount (bad : ScoreMap) (peers : List (List Nat)) : Nat :=
  (peers.filter (healthyPeer bad)).length

def healthySeen : List (ScoreMap × List (List Nat)) → Nat
  | [] => 0
  | (bad, peers) :: rest => healthyCount bad peers + healthySeen rest

instance instIsTotalOrderRel : IsTotal (Nat × List Nat) (fun x y => x.1 ≤ y.1) :=
  ⟨fun a b => Nat.le_total a.1 b.1⟩

instance instIsTransOrderRel : IsTrans (Nat × List Nat) (fun x y => x.1 ≤ y.1) :=
  ⟨fun _ _ _ => Nat.le_trans⟩

theorem pushPeer_eq_or (order : OrderList) (aff : Nat) (p : List Nat) :
    pushPeer order aff p = order ∨ pushPeer order aff p = order ++ [(aff, p)] := by
  unfold pushPeer
  by_cases h : pushAdmit order aff = true
  · rw [if_pos h]
    exact Or.inr rfl
  · rw [if_neg h]
    exact Or.inl rfl

theorem pushPeer_length_lt (order : OrderList) (aff : Nat) (p : List Nat)
    (h : order.length < MAX_TASKS) :
    pushPeer order aff p = order ++ [(aff, p)] := by
  have hadd : pushAdmit order aff = true := by
    unfold pushAdmit
    cases hl : order.getLast? with
    | none => rfl
    | some tp =>
      rcases tp with ⟨top, q⟩
      simp [h]
  unfold pushPeer
  rw [if_pos hadd]

theorem pushPeer_full_bound (order : OrderList) (aff : Nat) (p : List Nat) (m : Nat)
    (hfull : MAX_TASKS ≤ order.length)
    (hbound : ∀ x ∈ order, m ≤ x.1)
    (x : Nat × List Nat) (hx : x ∈ pushPeer order aff p) :
    m ≤ x.1 := by
  unfold pushPeer at hx
  by_cases hadd : pushAdmit order aff = true
  · rw [if_pos hadd] at hx
    rcases List.mem_append.mp hx with hx | hx
    · exact hbound x hx
    · have hxa : x = (aff, p) := by simpa using hx
      have hne : order ≠ [] := by
        intro h
        rw [h] at hfull
        simp only [List.length_nil, MAX_TASKS] at hfull
        omega
      have hlast : order.getLast? = some (order.getLast hne) :=
        List.getLast?_eq_getLast order hne
      rcases hl : order.getLast hne with ⟨top, q⟩
      unfold pushAdmit at hadd
      rw [hlast, hl] at hadd
      have hnlt : ¬ order.length < MAX_TASKS := by omega
      simp only [hnlt, decide_eq_true_eq, Bool.or_eq_true, decide_eq_false_iff_not,
        or_false, decide_eq_false hnlt, Bool.or_false] at hadd
      have hmem : (top, q) ∈ order := by
        rw [← hl]
        exact List.getLast_mem hne
      have h1 : m ≤ top := hbound (top, q) hmem
      rw [hxa]
      exact Nat.le_trans h1 hadd
  · rw [if_neg hadd] at hx
    exact hbound x hx

theorem pullLoop_extends (bad : ScoreMap) (key : List Nat) :
    ∀ (peers : List (List Nat)) (order : OrderList),
      ∃ ext, pullLoop bad key peers order = order ++ ext
  | [], order => ⟨[], by simp [pullLoop]⟩
  | p :: rest, order => by
    unfold pullLoop
    by_cases hh : healthyPeer bad p
    · simp only [hh, if_true]
      rcases pushPeer_eq_or order (effAffinity bad key p) p with he | he
      · rw [he]
        exact pullLoop_extends bad key rest order
      · rw [he]
        obtain ⟨ext, hext⟩ := pullLoop_extends bad key rest (order ++ [(effAffinity bad key p, p)])
        exact ⟨(effAffinity bad key p, p) :: ext, by rw [hext]; simp⟩
    · simp only [hh, if_false, Bool.false_eq_true]
      exact pullLoop_extends bad key rest order

theorem pullLoop_length (bad : ScoreMap) (key : List Nat) :
    ∀ (peers : List (List Nat)) (order : OrderList),
      min MAX_TASKS (order.length + healthyCount bad peers) ≤
        (pullLoop bad key peers order).length
  | [], order => by simp [pullLoop, healthyCount]
  | p :: rest, order => by
    unfold pullLoop
    by_cases hh : healthyPeer bad p
    · simp only [hh, if_true]
      have hcount : healthyCount bad (p :: rest) = healthyCount bad rest + 1 := by
        simp [healthyCount, hh]
      rw [hcount]
      by_cases hlen : order.length < MAX_TASKS
      · rw [pushPeer_length_lt order _ p hlen]
        have ih := pullLoop_length bad key rest (order ++ [(effAffinity bad key p, p)])
        simp only [List.length_append, List.length_cons, List.length_nil] at ih
        omega
      · have ih := pullLoop_length bad key rest order
        rcases pushPeer_eq_or order (effAffinity bad key p) p with he | he
        · rw [he]
          omega
        · rw [he]
          have ih2 := pullLoop_length bad key rest (order ++ [(effAffinity bad key p, p)])
          simp only [List.length_append, List.length_cons, List.length_nil] at ih2
          omega
    · simp only [hh, if_false, Bool.false_eq_true]
      have hcount : healthyCount bad (p :: rest) = healthyCount bad rest := by
        simp [healthyCount, hh]
      rw [hcount]
      exact pullLoop_length bad key rest order

theorem pullLoop_full_bound (bad : ScoreMap) (key : List Nat) (m : Nat) :
    ∀ (peers : List (List Nat)) (order : OrderList),
      MAX_TASKS ≤ order.length → (∀ x ∈ order, m ≤ x.1) →
      ∀ x ∈ pullLoop bad key peers order, m ≤ x.1
  | [], order, _, hbound => by
    intro x hx
    exact hbound x (by simpa [pullLoop] using hx)
  | p :: rest, order, hfull, hbound => by
    intro x hx
    unfold pullLoop at hx
    by_cases hh : healthyPeer bad p
    · simp only [hh, if_true] at hx
      have hfull' : MAX_TASKS ≤ (pushPeer order (effAffinity bad key p) p).length := by
        rcases pushPeer_eq_or order (effAffinity bad key p) p with he | he
        · rw [he]
          exact hfull
        · rw [he]
          simp only [List.length_append, List.length_cons, List.length_nil]
          omega
      have hbound' : ∀ y ∈ pushPeer order (effAffinity bad key p) p, m ≤ y.1 :=
        fun y hy => pushPeer_full_bound order _ p m hfull hbound y hy
      exact pullLoop_full_bound bad key m rest _ hfull' hbound' x hx
    · simp only [hh, if_false, Bool.false_eq_true] at hx
      exact pullLoop_full_bound bad key m rest order hfull hbound x hx

theorem dropLoopD_drop_eq (top a : Nat) (p : List Nat) (rest : OrderList)
    (hc : MAX_TASKS < rest.length + 1 ∧ a < top) :
    dropLoopD top ((a, p) :: rest) =
      ((dropLoopD top rest).1, (a, p) :: (dropLoopD top rest).2) := by
  conv_lhs => rw [dropLoopD]
  rw [if_pos hc]

theorem dropLoopD_keep_eq (top a : Nat) (p : List Nat) (rest : OrderList)
    (hc : ¬ (MAX_TASKS < rest.length + 1 ∧ a < top)) :
    dropLoopD top ((a, p) :: rest) = ((a, p) :: rest, []) := by
  conv_lhs => rw [dropLoopD]
  rw [if_neg hc]

theorem dropLoopD_append (top : Nat) :
    ∀ l : OrderList, l = (dropLoopD top l).2 ++ (dropLoopD top l).1
  | [] => by simp [dropLoopD]
  | (a, p) :: rest => by
    by_cases hc : MAX_TASKS < rest.length + 1 ∧ a < top
    · rw [dropLoopD_drop_eq top a p rest hc]
      have ih := dropLoopD_append top rest
      show (a, p) :: rest = ((a, p) :: (dropLoopD top rest).2) ++ (dropLoopD top rest).1
      rw [List.cons_append, ← ih]
    · rw [dropLoopD_keep_eq top a p rest hc]
      simp

theorem dropLoopD_keep_length (top : Nat) :
    ∀ l : OrderList, min MAX_TASKS l.length ≤ (dropLoopD top l).1.length
  | [] => by simp [dropLoopD]
  | (a, p) :: rest => by
    by_cases hc : MAX_TASKS < rest.length + 1 ∧ a < top
    · rw [dropLoopD_drop_eq top a p rest hc]
      have ih := dropLoopD_keep_length top rest
      obtain ⟨hc1, _⟩ := hc
      show min MAX_TASKS ((a, p) :: rest).length ≤ (dropLoopD top rest).1.length
      simp only [List.length_cons]
      omega
    · rw [dropLoopD_keep_eq top a p rest hc]
      show min MAX_TASKS ((a, p) :: rest).length ≤ ((a, p) :: rest).length
      omega

theorem dropLoopD_dropped_full (top : Nat) :
    ∀ l : OrderList, (dropLoopD top l).2 ≠ [] → MAX_TASKS ≤ (dropLoopD top l).1.length
  | [] => by simp [dropLoopD]
  | (a, p) :: rest => by
    by_cases hc : MAX_TASKS < rest.length + 1 ∧ a < top
    · rw [dropLoopD_drop_eq top a p rest hc]
      intro _
      have ih := dropLoopD_keep_length top rest
      obtain ⟨hc1, _⟩ := hc
      show MAX_TASKS ≤ (dropLoopD top rest).1.length
      omega
    · rw [dropLoopD_keep_eq top a p rest hc]
      intro h
      simp at h

/-- The invariant carried through a sequence of `update` calls: `order` is
sorted ascending by effective affinity, holds at least
min(MAX_TASKS, healthy-peers-seen) entries, every element dominates every
element ever dropped from `order`, and once something has been dropped the
list stays at least MAX_TASKS long. -/
def IterInv (ord dropped : OrderList) (seen : Nat) : Prop :=
  List.Sorted (fun x y => x.1 ≤ y.1) ord ∧
  min MAX_TASKS seen ≤ ord.length ∧
  (∀ d ∈ dropped, ∀ x ∈ ord, d.1 ≤ x.1) ∧
  (dropped ≠ [] → MAX_TASKS ≤ ord.length)

theorem updateFull_step (bad : ScoreMap) (key : List Nat) (ord dropped : OrderList)
    (seen : Nat) (peers : List (List Nat)) (hinv : IterInv ord dropped seen) :
    IterInv (updateFull bad key ord peers).1 (dropped ++ (updateFull bad key ord peers).2)
      (seen + healthyCount bad peers) := by
  obtain ⟨hsort, hlen, hdrop, hfull⟩ := hinv
  obtain ⟨ext, hext⟩ := pullLoop_extends bad key peers ord
  have hlen1 := pullLoop_length bad key peers ord
  have hperm : (List.insertionSort (fun x y : Nat × List Nat => x.1 ≤ y.1)
      (pullLoop bad key peers ord)).Perm (pullLoop bad key peers ord) :=
    List.perm_insertionSort _ _
  have hsorted2 : List.Sorted (fun x y : Nat × List Nat => x.1 ≤ y.1)
      (List.insertionSort (fun x y : Nat × List Nat => x.1 ≤ y.1)
        (pullLoop bad key peers ord)) :=
    List.sorted_insertionSort _ _
  have hlen2 := hperm.length_eq
  cases hlast : (List.insertionSort (fun x y : Nat × List Nat => x.1 ≤ y.1)
      (pullLoop bad key peers ord)).getLast? with
  | none =>
    have ho2nil : List.insertionSort (fun x y : Nat × List Nat => x.1 ≤ y.1)
        (pullLoop bad key peers ord) = [] := List.getLast?_eq_none_iff.mp hlast
    have hupd : updateFull bad key ord peers =
        (List.insertionSort (fun x y : Nat × List Nat => x.1 ≤ y.1)
          (pullLoop bad key peers ord), []) := by
      simp only [updateFull]
      rw [hlast]
    rw [hupd, ho2nil]
    have ho1nil : (pullLoop bad key peers ord).length = 0 := by
      rw [← hlen2, ho2nil]
      rfl
    refine ⟨List.sorted_nil, ?_, by simp, ?_⟩
    · simp only [List.length_nil]
      omega
    · intro hne
      simp only [List.append_nil] at hne
      have := hfull hne
      simp only [List.length_nil]
      have hordlen : ord.length = 0 := by
        have hext' : (pullLoop bad key peers ord).length = ord.length + ext.length := by
          rw [hext]
          simp
        omega
      omega
  | some tp =>
    rcases tp with ⟨top, q⟩
    have hupd : updateFull bad key ord peers =
        dropLoopD top (List.insertionSort (fun x y : Nat × List Nat => x.1 ≤ y.1)
          (pullLoop bad key peers ord)) := by
      simp only [updateFull]
      rw [hlast]
    rw [hupd]
    have happend := dropLoopD_append top
      (List.insertionSort (fun x y : Nat × List Nat => x.1 ≤ y.1)
        (pullLoop bad key peers ord))
    have hpair := List.pairwise_append.mp (happend ▸ hsorted2)
    have hkeep := dropLoopD_keep_length top
      (List.insertionSort (fun x y : Nat × List Nat => x.1 ≤ y.1)
        (pullLoop bad key peers ord))
    refine ⟨hpair.2.1, ?_, ?_, ?_⟩
    · have hext' : ord.length ≤ (pullLoop bad key peers ord).length := by
        rw [hext]
        simp
      omega
    · intro d hd x hx
      rcases List.mem_append.mp hd with hd | hd
      · -- an element dropped by an earlier update
        have hne : dropped ≠ [] := List.ne_nil_of_mem hd
        have hf := hfull hne
        have hb := pullLoop_full_bound bad key d.1 peers ord hf (hdrop d hd)
        have hx2 : x ∈ List.insertionSort (fun x y : Nat × List Nat => x.1 ≤ y.1)
            (pullLoop bad key peers ord) := by
          rw [happend]
          exact List.mem_append_right _ hx
        exact hb x (hperm.mem_iff.mp hx2)
      · -- an element drained by this update
        exact hpair.2.2 d hd x hx
    · intro hne
      by_cases hnd : (dropLoopD top (List.insertionSort
          (fun x y : Nat × List Nat => x.1 ≤ y.1) (pullLoop bad key peers ord))).2 = []
      · have hdne : dropped ≠ [] := by
          intro h
          rw [h, hnd] at hne
          simp at hne
        have hf := hfull hdne
        have hkeq : (dropLoopD top (List.insertionSort
            (fun x y : Nat × List Nat => x.1 ≤ y.1) (pullLoop bad key peers ord))).1.length =
            (List.insertionSort (fun x y : Nat × List Nat => x.1 ≤ y.1)
              (pullLoop bad key peers ord)).length := by
          conv_rhs => rw [happend]
          rw [hnd]
          simp
        have hext' : ord.length ≤ (pullLoop bad key peers ord).length := by
          rw [hext]
          simp
        omega
      · exact dropLoopD_dropped_full top _ hnd

theorem runUpdates_inv (key : List Nat) :
    ∀ (batches : List (ScoreMap × List (List Nat))) (ord dropped : OrderList) (seen : Nat),
      IterInv ord dropped seen →
      IterInv (runUpdates key batches (ord, dropped)).1
        (runUpdates key batches (ord, dropped)).2 (seen + healthySeen batches)
  | [], ord, dropped, seen, h => by
    simpa [runUpdates, healthySeen] using h
  | (bad, peers) :: rest, ord, dropped, seen, h => by
    have hstep := updateFull_step bad key ord dropped seen peers h
    have ih := runUpdates_inv key rest (updateFull bad key ord peers).1
      (dropped ++ (updateFull bad key ord peers).2) (seen + healthyCount bad peers) hstep
    simp only [runUpdates, healthySeen]
    have harith : seen + (healthyCount bad peers + healthySeen rest) =
        seen + healthyCount bad peers + healthySeen rest := by omega
    rw [harith]
    exact ih

/-- C7: after any sequence of `DhtIterator::update` calls over any
routing-table contents and score tables (each update delivering the batch of
peers newly visible to the resumable cursor), the iterator's `order` list is
sorted ascending by effective affinity, `|order| ≥ min(MAX_TASKS,
healthy-peers-seen)`, and every element retained in `order` has effective
affinity ≥ the effective affinity of every element that was dropped from
`order` (hence ≥ their maximum). -/
theorem iterator_top_k (key : List Nat) (batches : List (ScoreMap × List (List Nat))) :
    List.Sorted (fun x y => x.1 ≤ y.1) (runUpdates key batches ([], [])).1 ∧
    min MAX_TASKS (healthySeen batches) ≤ (runUpdates key batches ([], [])).1.length ∧
    ∀ d ∈ (runUpdates key batches ([], [])).2, ∀ x ∈ (runUpdates key batches ([], [])).1,
      d.1 ≤ x.1 := by
  have h0 : IterInv [] [] 0 := by
    refine ⟨List.sorted_nil, ?_, by simp, by simp⟩
    simp
  have h := runUpdates_inv key batches [] [] 0 h0
  obtain ⟨h1, h2, h3, _⟩ := h
  refine ⟨h1, ?_, h3⟩
  simpa using h2

/-- Witness for `iterator_top_k`: one update over two healthy peers. -/
theorem iterator_top_k_witness :
    List.Sorted (fun x y => x.1 ≤ y.1)
      (runUpdates (List.replicate 32 0)
        [([], [1 :: List.replicate 31 0, 2 :: List.replicate 31 0])] ([], [])).1 ∧
    min MAX_TASKS
        (healthySeen [(([] : ScoreMap), [1 :: List.replicate 31 0, 2 :: List.replicate 31 0])]) ≤
      (runUpdates (List.replicate 32 0)
        [([], [1 :: List.replicate 31 0, 2 :: List.replicate 31 0])] ([], [])).1.length ∧
    ∀ d ∈ (runUpdates (List.replicate 32 0)
        [([], [1 :: List.replicate 31 0, 2 :: List.replicate 31 0])] ([], [])).2,
      ∀ x ∈ (runUpdates (List.replicate 32 0)
        [([], [1 :: List.replicate 31 0, 2 :: List.replicate 31 0])] ([], [])).1,
        d.1 ≤ x.1 :=
  iterator_top_k (List.replicate 32 0)
    [([], [1 :: List.replicate 31 0, 2 :: List.replicate 31 0])]

end Dht
